import Mathlib

/-!
Verification of the PageRank implementation in `pagerank/pagerank.py`.

The Python code is shallowly embedded: dictionaries become insertion-ordered
association lists, Python floats are idealised as exact rationals (`ℚ`), the
global random source becomes an explicit stream `us : Nat → ℚ` of raw draws in
`[0,1)`, and fallible operations return `Except PyErr` (with a fuel parameter,
returning `Option`, for the unbounded convergence loop).
-/

namespace PageRank

set_option maxRecDepth 4000

abbrev Page := String

/-- A corpus maps each page to the list of pages it links to (a Python `set`
of distinct targets), in insertion order.  Models the `corpus` dict. -/
abbrev Corpus := List (Page × List Page)

/-- A Python dict from pages to numbers, in insertion order. -/
abbrev Dist := List (Page × ℚ)

/-- Association-list lookup: models Python `d[k]` (first binding wins; Python
dicts have distinct keys, so lists built from dicts never repeat a key). -/
def dlookup {α : Type} : List (Page × α) → Page → Option α
  | [], _ => none
  | (k, v) :: t, q => if k = q then some v else dlookup t q

/-- `distribution[p]` for a rank dictionary, with default `0` for a missing
key (a missing key would be a `KeyError` in Python; every run considered in
this file keeps all corpus keys present, so the default is never exercised). -/
def dget (d : Dist) (q : Page) : ℚ := (dlookup d q).getD 0

/-- `corpus[page]`: the link set of `page`, defaulting to no links. -/
def clinks (c : Corpus) (p : Page) : List Page := (dlookup c p).getD []

/-- Python dict assignment `d[k] = v`: replaces the binding in place,
preserving insertion order, or appends a fresh binding. -/
def dset : Dist → Page → ℚ → Dist
  | [], k, v => [(k, v)]
  | (k', v') :: t, k, v => if k' = k then (k, v) :: t else (k', v') :: dset t k v

/-- `list(d.keys())`. -/
def dkeys {α : Type} (d : List (Page × α)) : List Page := d.map Prod.fst

/-- `sum(d.values())`. -/
def sumDist (d : Dist) : ℚ := (d.map Prod.snd).sum

/-- `transition_model(corpus, page, damping_factor)` from pagerank.py.

The Python code first gives every corpus key the base mass
`(1 - damping_factor) / num_pages` and then adds `damping_factor / num_links`
to each linked key; since dict keys are distinct the resulting dict is the
graph, in corpus key order, of the pointwise function written here.  A page
with no outgoing links yields the uniform distribution `1.0 / num_pages`. -/
def transition_model (corpus : Corpus) (page : Page) (damping : ℚ) : Dist :=
  let links := clinks corpus page
  if links = [] then
    corpus.map (fun kl => (kl.1, 1 / (corpus.length : ℚ)))
  else
    corpus.map (fun kl =>
      (kl.1, (1 - damping) / (corpus.length : ℚ) +
        if kl.1 ∈ links then damping / (links.length : ℚ) else 0))

/-- `get_sum(corpus, distribution, page)` from pagerank.py: sum of
`distribution[p] / len(corpus[p])` over the pages `p` whose link set
contains `page`. -/
def get_sum (corpus : Corpus) (dist : Dist) (page : Page) : ℚ :=
  corpus.foldl
    (fun acc kl =>
      if page ∈ kl.2 then acc + dget dist kl.1 / (kl.2.length : ℚ) else acc)
    0

/-- One update of the `for page in corpus` body inside `iterate_pagerank`:
`distribution[page] = (1-damping)/N + damping * get_sum(corpus, distribution, page)`,
reading `get_sum` from the working (partially updated) distribution. -/
def sweepStep (corpus : Corpus) (damping : ℚ) (d : Dist) (kl : Page × List Page) : Dist :=
  dset d kl.1 ((1 - damping) / (corpus.length : ℚ) + damping * get_sum corpus d kl.1)

/-- One full pass of the `for page in corpus` loop of `iterate_pagerank`,
updating the distribution in place, page by page in corpus key order. -/
def sweep (corpus : Corpus) (damping : ℚ) (dist : Dist) : Dist :=
  corpus.foldl (sweepStep corpus damping) dist

/-- The convergence flag computed during a sweep: `change` ends up true iff
some page moved by more than `0.001` between the start-of-sweep snapshot
`old` and its freshly written value. -/
def changed (corpus : Corpus) (old new : Dist) : Bool :=
  corpus.any (fun kl => 1 / 1000 < |dget old kl.1 - dget new kl.1|)

/-- `{}.fromkeys(corpus.keys(), 1.0 / total_pages)`. -/
def initDist (corpus : Corpus) : Dist :=
  corpus.map (fun kl => (kl.1, 1 / (corpus.length : ℚ)))

/-- The `while change` loop of `iterate_pagerank`, given fuel (the Python
loop is unbounded; `none` means the bound was hit before convergence). -/
def iterateLoop (corpus : Corpus) (damping : ℚ) : Nat → Dist → Option Dist
  | 0, _ => none
  | fuel + 1, dist =>
    let newDist := sweep corpus damping dist
    if changed corpus dist newDist then iterateLoop corpus damping fuel newDist
    else some newDist

/-- Python exceptions that the two estimators can raise. -/
inductive PyErr : Type where
  | indexError : PyErr
  | zeroDivisionError : PyErr
  | valueError : PyErr
  | descriptive : String → PyErr
deriving DecidableEq, Repr

/-- `iterate_pagerank(corpus, damping_factor)` from pagerank.py.  On an empty
corpus the very first statement `1.0 / total_pages` raises a Python
`ZeroDivisionError`. -/
def iterate_pagerank (corpus : Corpus) (damping : ℚ) (fuel : Nat) :
    Except PyErr (Option Dist) :=
  if corpus.length = 0 then .error .zeroDivisionError
  else .ok (iterateLoop corpus damping fuel (initDist corpus))

/-- Cumulative sums of a weight list, as built by Python `accumulate`. -/
def cums (acc : ℚ) : List ℚ → List ℚ
  | [] => []
  | w :: t => (acc + w) :: cums (acc + w) t

/-- Index returned by `bisect.bisect(cum_weights, x)`: the number of
cumulative weights that are `≤ x`. -/
def pickIdx (x : ℚ) : List ℚ → Nat
  | [] => 0
  | c :: t => if x < c then 0 else 1 + pickIdx x t

/-- `random.choices(keys, weights=ws, k=1)[0]` driven by one raw draw
`u ∈ [0,1)`: Python rejects a non-positive total weight (`ValueError`,
modelled as `none`), then returns `keys[bisect(cum, u*total, 0, len-1)]`;
the `len-1` bound caps the index, so a non-empty population always yields
an element. -/
def weightedChoice (keys : List Page) (ws : List ℚ) (u : ℚ) : Option Page :=
  let total := ws.sum
  if total ≤ 0 then none
  else keys.get? (min (pickIdx (u * total) (cums 0 ws)) (keys.length - 1))

/-- `random.choices(keys)[0]` (no weights) driven by one raw draw `u`:
Python returns `keys[floor(u * len(keys))]`, an `IndexError` (here `none`)
on an empty population. -/
def uniformChoice (keys : List Page) (u : ℚ) : Option Page :=
  keys.get? (Int.toNat ⌊u * (keys.length : ℚ)⌋)

/-- The `for i in range(1, n)` loop of `sample_pagerank`: at step `i` the
accumulator is replaced by the online mean
`d[p] = ((i-1)*d[p] + current_dist[p]) / i`, and the next page is drawn from
`d.keys()` weighted by `d.values()` — the running-average accumulator. -/
def sampleAux (corpus : Corpus) (damping : ℚ) (us : Nat → ℚ) :
    Nat → Nat → Page → Dist → Except PyErr Dist
  | 0, _, _, d => .ok d
  | steps + 1, i, page, d =>
    let current := transition_model corpus page damping
    let d2 := d.map (fun pv => (pv.1, (((i : ℚ) - 1) * pv.2 + dget current pv.1) / (i : ℚ)))
    match weightedChoice (dkeys d2) (d2.map Prod.snd) (us i) with
    | some next => sampleAux corpus damping us steps (i + 1) next d2
    | none => .error .valueError

/-- `sample_pagerank(corpus, damping_factor, n)` from pagerank.py, with the
random source made explicit: `us i` is the raw `random()` draw consumed by
the `i`-th call to `random.choices` (`us 0` picks the start page). -/
def sample_pagerank (corpus : Corpus) (damping : ℚ) (n : Nat) (us : Nat → ℚ) :
    Except PyErr Dist :=
  match uniformChoice (dkeys corpus) (us 0) with
  | none => .error .indexError
  | some page => sampleAux corpus damping us (n - 1) 1 page (corpus.map (fun kl => (kl.1, 0)))

/-- Modelled from the spec: the loop body claimed by the specification, which
draws the next page from `current.keys()` weighted by `current.values()`
(the most recent transition distribution) instead of from the accumulator. -/
def sampleAuxClaimed (corpus : Corpus) (damping : ℚ) (us : Nat → ℚ) :
    Nat → Nat → Page → Dist → Except PyErr Dist
  | 0, _, _, d => .ok d
  | steps + 1, i, page, d =>
    let current := transition_model corpus page damping
    let d2 := d.map (fun pv => (pv.1, (((i : ℚ) - 1) * pv.2 + dget current pv.1) / (i : ℚ)))
    match weightedChoice (dkeys current) (current.map Prod.snd) (us i) with
    | some next => sampleAuxClaimed corpus damping us steps (i + 1) next d2
    | none => .error .valueError

/-- Modelled from the spec: `sample_pagerank` as the specification describes
it, drawing each next page from the most recent transition distribution. -/
def sample_pagerank_claimed (corpus : Corpus) (damping : ℚ) (n : Nat) (us : Nat → ℚ) :
    Except PyErr Dist :=
  match uniformChoice (dkeys corpus) (us 0) with
  | none => .error .indexError
  | some page => sampleAuxClaimed corpus damping us (n - 1) 1 page (corpus.map (fun kl => (kl.1, 0)))

/-- Modelled from the spec: the synchronous Jacobi sweep the specification
claims `iterate_pagerank` performs — every page's new value computed from the
start-of-sweep snapshot `old`, never from values updated earlier in the same
sweep. -/
def jacobiSweep (corpus : Corpus) (damping : ℚ) (old : Dist) : Dist :=
  corpus.map (fun kl =>
    (kl.1, (1 - damping) / (corpus.length : ℚ) + damping * get_sum corpus old kl.1))

/-! ## Concrete inputs used by several claims -/

/-- The two-page corpus `{A: {B}, B: {}}` (B dangling) from the spec's
scenarios. -/
def corpusAB : Corpus := [("A", ["B"]), ("B", [])]

/-- The single-page corpus `{A: {}}` from the spec's scenarios. -/
def corpusA : Corpus := [("A", [])]

/-- A concrete random stream: `us 1 = 1/2`, `us 2 = 2/5`, every other raw
draw `0`. -/
def usC1 : Nat → ℚ := fun n => if n = 1 then 1 / 2 else if n = 2 then 2 / 5 else 0

/-- Equality of `Except` results is decidable componentwise. -/
instance {ε α : Type} [DecidableEq ε] [DecidableEq α] : DecidableEq (Except ε α) := fun x y =>
  match x, y with
  | .ok a, .ok b =>
    if h : a = b then isTrue (by rw [h]) else isFalse (fun hc => h (Except.ok.inj hc))
  | .ok _, .error _ => isFalse (fun hc => Except.noConfusion hc)
  | .error _, .ok _ => isFalse (fun hc => Except.noConfusion hc)
  | .error e, .error f =>
    if h : e = f then isTrue (by rw [h]) else isFalse (fun hc => h (Except.error.inj hc))

/-! ## Claim theorems

The arithmetic of the embedded program is exact rational arithmetic, so the
kernel can evaluate every run appearing below once the `Batteries` rational
operations are made reducible again for these proofs. -/

attribute [local semireducible] Rat.add Rat.mul Rat.inv Rat.sub Rat.ofScientific

/-! ### Association-list lemmas -/

theorem dget_dset_self (d : Dist) (k : Page) (v : ℚ) : dget (dset d k v) k = v := by
  induction d with
  | nil => simp [dset, dget, dlookup]
  | cons hd t ih =>
    by_cases h : hd.1 = k
    · simp [dset, h, dget, dlookup]
    · simp only [dset, h, if_false, dget, dlookup] at ih ⊢
      simpa [h] using ih

theorem dkeys_cons (a : Page × ℚ) (l : Dist) : dkeys (a :: l) = a.1 :: dkeys l := rfl

theorem sumDist_cons (a : Page × ℚ) (l : Dist) : sumDist (a :: l) = a.2 + sumDist l := rfl

theorem dget_dset_ne (d : Dist) (k : Page) (v : ℚ) (q : Page) (h : q ≠ k) :
    dget (dset d k v) q = dget d q := by
  have hkq : ¬ (k = q) := fun hc => h hc.symm
  induction d with
  | nil => simp [dset, dget, dlookup, hkq]
  | cons hd t ih =>
    obtain ⟨k', v'⟩ := hd
    by_cases hh : k' = k
    · subst hh
      simp [dset, dget, dlookup, hkq]
    · by_cases hq : k' = q
      · simp [dset, hh, dget, dlookup, hq, h]
      · simp only [dset, if_neg hh, dget, dlookup, if_neg hq] at ih ⊢
        exact ih

theorem dkeys_dset_of_mem (d : Dist) (k : Page) (v : ℚ) (h : k ∈ dkeys d) :
    dkeys (dset d k v) = dkeys d := by
  induction d with
  | nil => simp [dkeys] at h
  | cons hd t ih =>
    obtain ⟨k', v'⟩ := hd
    by_cases hh : k' = k
    · subst hh
      simp [dset, dkeys]
    · have hm : k ∈ dkeys t := by
        rcases (by simpa [dkeys] using h : k = k' ∨ k ∈ dkeys t) with h' | h'
        · exact absurd h'.symm hh
        · exact h'
      simp only [dset, if_neg hh, dkeys_cons]
      exact congrArg (k' :: ·) (ih hm)

theorem dget_map_graph (c : Corpus) (f : Page → ℚ) (k : Page) :
    k ∈ dkeys c → dget (c.map (fun kl => (kl.1, f kl.1))) k = f k := by
  induction c with
  | nil => intro h; simp [dkeys] at h
  | cons hd t ih =>
    intro h
    obtain ⟨k', ls⟩ := hd
    by_cases hh : k' = k
    · subst hh
      simp [dget, dlookup]
    · have hm : k ∈ dkeys t := by
        rcases (by simpa [dkeys] using h : k = k' ∨ k ∈ dkeys t) with h' | h'
        · exact absurd h'.symm hh
        · exact h'
      simp only [List.map_cons, dget, dlookup, if_neg hh]
      exact ih hm

theorem dget_map_graph_nonneg (c : Corpus) (f : Page → ℚ) (hf : ∀ k, 0 ≤ f k) (q : Page) :
    0 ≤ dget (c.map (fun kl => (kl.1, f kl.1))) q := by
  induction c with
  | nil => simp [dget, dlookup]
  | cons hd t ih =>
    by_cases hh : hd.1 = q
    · simpa [dget, dlookup, hh] using hf q
    · simpa [dget, dlookup, hh] using ih

theorem dkeys_map_graph (c : Corpus) (f : Page → ℚ) :
    dkeys (c.map (fun kl => (kl.1, f kl.1))) = dkeys c := by
  induction c with
  | nil => rfl
  | cons hd t ih => simp only [List.map_cons, dkeys_cons, dkeys, List.map_cons] at ih ⊢; rw [ih]

theorem sumDist_map_graph (c : Corpus) (f : Page → ℚ) :
    sumDist (c.map (fun kl => (kl.1, f kl.1))) = ((dkeys c).map f).sum := by
  induction c with
  | nil => rfl
  | cons hd t ih =>
    simp only [List.map_cons, sumDist_cons, dkeys, List.sum_cons, ih]

/-! ### Summation lemmas for the transition model -/

theorem sum_base_ite (keys links : List Page) (a b : ℚ) :
    (keys.map (fun k => a + if k ∈ links then b else 0)).sum
      = (keys.length : ℚ) * a
        + ((keys.filter (fun k => decide (k ∈ links))).length : ℚ) * b := by
  induction keys with
  | nil => simp
  | cons k t ih =>
    by_cases h : k ∈ links
    · simp only [List.map_cons, List.sum_cons, ih, List.filter_cons, h, List.length_cons,
        decide_True, if_true]
      push_cast
      ring
    · simp only [List.map_cons, List.sum_cons, ih, List.filter_cons, h, List.length_cons,
        decide_False, if_false, if_true]
      push_cast
      ring

theorem filter_mem_length (keys links : List Page) (hk : keys.Nodup) (hl : links.Nodup)
    (hsub : ∀ x ∈ links, x ∈ keys) :
    (keys.filter (fun k => decide (k ∈ links))).length = links.length := by
  have hfn : (keys.filter (fun k => decide (k ∈ links))).Nodup := hk.filter _
  have hset : (keys.filter (fun k => decide (k ∈ links))).toFinset = links.toFinset := by
    ext x
    simp only [List.mem_toFinset, List.mem_filter, decide_eq_true_eq]
    exact ⟨fun h => h.2, fun h => ⟨hsub x h, h⟩⟩
  calc (keys.filter (fun k => decide (k ∈ links))).length
      = (keys.filter (fun k => decide (k ∈ links))).toFinset.card :=
        (List.toFinset_card_of_nodup hfn).symm
    _ = links.toFinset.card := by rw [hset]
    _ = links.length := List.toFinset_card_of_nodup hl

/-- C1. The spec claims the next page of `sample_pagerank`'s walk is drawn
from the most recent transition distribution `current`; the code instead
draws it from the running-average accumulator `d`
(`random.choices(list(d.keys()), weights=list(d.values()), k=1)`).  On the
corpus `{A: {B}, B: {}}` with damping `0.85`, `n = 4` and raw draws
`(0, 1/2, 2/5, …)`, the code's walk and the spec's walk part ways at step
`i = 2` (the accumulator `{A: 23/80, B: 57/80}` sends the draw `2/5` to `B`,
while the transition distribution `{A: 1/2, B: 1/2}` would send it to `A`),
so the two runs return different accumulators. -/
theorem C1_sample_draws_from_accumulator :
    sample_pagerank corpusAB (17 / 20) 4 usC1 =
      .ok [("A", 43 / 120), ("B", 77 / 120)] ∧
    sample_pagerank_claimed corpusAB (17 / 20) 4 usC1 =
      .ok [("A", 13 / 60), ("B", 47 / 60)] ∧
    sample_pagerank corpusAB (17 / 20) 4 usC1 ≠
      sample_pagerank_claimed corpusAB (17 / 20) 4 usC1 := by
  refine ⟨by decide, by decide, by decide⟩

/-- C2 counterexample. The first sweep of `iterate_pagerank`'s run on
`{A: {B}, B: {}}` (damping `0.85`, start `{A: 1/2, B: 1/2}`) is not the
synchronous Jacobi sweep the claim describes: when `B` is updated, the sum
over its in-neighbours reads `A`'s value already rewritten earlier in the
same sweep (`3/40`), giving `B ↦ 111/800`, whereas the claimed formula over
the start-of-sweep snapshot gives `B ↦ 1/2`. -/
theorem C2_first_sweep_not_jacobi :
    sweep corpusAB (17 / 20) (initDist corpusAB) ≠
      jacobiSweep corpusAB (17 / 20) (initDist corpusAB) ∧
    dget (sweep corpusAB (17 / 20) (initDist corpusAB)) "B" = 111 / 800 ∧
    dget (jacobiSweep corpusAB (17 / 20) (initDist corpusAB)) "B" = 1 / 2 := by
  refine ⟨by decide, by decide, by decide⟩

/-- C3. On the single-page corpus `{A: {}}` with damping `0.85`,
`iterate_pagerank` does not return `{A: 1.0}`: the loop always runs at least
one sweep (`change` starts out `True`), the dangling page receives no inflow
from `get_sum`, and the returned distribution is `{A: 0.15}` (the second
sweep merely confirms convergence at `(1 - 0.85) / 1`). -/
theorem C3_single_page_returns_point_15 :
    iterate_pagerank corpusA (17 / 20) 10 = .ok (some [("A", 3 / 20)]) ∧
    (3 / 20 : ℚ) ≠ 1 := by
  refine ⟨by decide, by decide⟩

/-- C4. On the dangling corpus `{A: {}}` (which satisfies the data-model
invariant vacuously) with damping `0.85`, the distribution returned by
`iterate_pagerank` sums to `0.15`, missing `1.0` by `0.85` — far outside the
claimed `1e-3` aggregate tolerance and contradicting the function's own
docstring "All PageRank values should sum to 1". -/
theorem C4_iterate_sum_leaks_mass :
    iterate_pagerank corpusA (17 / 20) 10 = .ok (some [("A", 3 / 20)]) ∧
    sumDist [("A", 3 / 20)] = 3 / 20 ∧
    ¬ |sumDist [("A", 3 / 20)] - 1| ≤ 1 / 1000 := by
  refine ⟨by decide, by decide, by decide⟩

/-- C7 counterexample. On the empty corpus `sample_pagerank` fails with a raw
`IndexError` (from `random.choices(list(corpus.keys()))` on an empty
population), which is not the descriptive boundary error the claim
describes. -/
theorem C7_empty_corpus_raw_index_error :
    sample_pagerank [] (17 / 20) 10000 usC1 = .error .indexError ∧
    ∀ msg : String, PyErr.indexError ≠ .descriptive msg := by
  refine ⟨by decide, fun msg h => by cases h⟩

/-- C7 amended. For the empty corpus both estimators fail, but with low-level
faults, not a descriptive boundary error: `sample_pagerank` raises
`IndexError` while drawing the start page, and `iterate_pagerank` raises
`ZeroDivisionError` computing `1.0 / total_pages`; no conversion happens at
the boundary of the ranking functions. -/
theorem C7_empty_corpus_low_level_faults :
    (∀ (damping : ℚ) (n : Nat) (us : Nat → ℚ),
      sample_pagerank [] damping n us = .error .indexError) ∧
    (∀ (damping : ℚ) (fuel : Nat),
      iterate_pagerank [] damping fuel = .error .zeroDivisionError) := by
  constructor
  · intro damping n us
    rfl
  · intro damping fuel
    rfl

/-- C5. For a page with a non-empty link set (under the data-model invariant,
with distinct corpus keys and link targets inside the corpus), the transition
model returns a distribution over exactly the corpus's keys, with total mass
exactly `1`, assigning each linked page exactly
`(1-damping)/N + damping/|links|` (strictly above the base mass) and each
non-linked page exactly `(1-damping)/N`. -/
theorem C5_transition_linked (corpus : Corpus) (page : Page) (damping : ℚ)
    (links : List Page) (hl : dlookup corpus page = some links) (hne : links ≠ [])
    (hndk : (dkeys corpus).Nodup) (hndl : links.Nodup)
    (hsub : ∀ x ∈ links, x ∈ dkeys corpus) (h0 : 0 < damping) (h1 : damping < 1) :
    dkeys (transition_model corpus page damping) = dkeys corpus
    ∧ sumDist (transition_model corpus page damping) = 1
    ∧ ∀ k ∈ dkeys corpus,
        (k ∈ links →
          dget (transition_model corpus page damping) k
              = (1 - damping) / (corpus.length : ℚ) + damping / (links.length : ℚ)
          ∧ (1 - damping) / (corpus.length : ℚ)
              < dget (transition_model corpus page damping) k)
        ∧ (k ∉ links →
          dget (transition_model corpus page damping) k
              = (1 - damping) / (corpus.length : ℚ)) := by
  have htm : transition_model corpus page damping
      = corpus.map (fun kl =>
          (kl.1, (1 - damping) / (corpus.length : ℚ) +
            if kl.1 ∈ links then damping / (links.length : ℚ) else 0)) := by
    simp [transition_model, clinks, hl, hne]
  have hkeysne : corpus ≠ [] := by
    intro hc
    obtain ⟨x, hx⟩ := List.exists_mem_of_ne_nil links hne
    have := hsub x hx
    simp [hc, dkeys] at this
  have hN : (0 : ℚ) < (corpus.length : ℚ) := by
    have : 0 < corpus.length := List.length_pos.mpr hkeysne
    exact_mod_cast this
  have hL : (0 : ℚ) < (links.length : ℚ) := by
    have : 0 < links.length := List.length_pos.mpr hne
    exact_mod_cast this
  refine ⟨?_, ?_, ?_⟩
  · rw [htm]
    exact dkeys_map_graph corpus
      (fun q => (1 - damping) / (corpus.length : ℚ) +
        if q ∈ links then damping / (links.length : ℚ) else 0)
  · rw [htm]
    rw [sumDist_map_graph corpus
      (fun q => (1 - damping) / (corpus.length : ℚ) +
        if q ∈ links then damping / (links.length : ℚ) else 0)]
    rw [sum_base_ite, filter_mem_length (dkeys corpus) links hndk hndl hsub]
    have hlenk : ((dkeys corpus).length : ℚ) = (corpus.length : ℚ) := by
      simp [dkeys]
    rw [hlenk]
    field_simp
  · intro k hk
    have hval : dget (transition_model corpus page damping) k
        = (1 - damping) / (corpus.length : ℚ) +
            (if k ∈ links then damping / (links.length : ℚ) else 0) := by
      rw [htm]
      exact dget_map_graph corpus
        (fun q => (1 - damping) / (corpus.length : ℚ) +
          if q ∈ links then damping / (links.length : ℚ) else 0) k hk
    constructor
    · intro hkl
      rw [hval, if_pos hkl]
      refine ⟨rfl, ?_⟩
      have : 0 < damping / (links.length : ℚ) := div_pos h0 hL
      linarith
    · intro hkl
      rw [hval, if_neg hkl]
      ring

/-- C5 witness: the theorem instantiated on `{A: {B}, B: {}}`, page `A`
(links `{B}`), damping `0.85`: in particular the returned mass sums to `1`
and `B` receives `0.075 + 0.85 = 0.925 > 0.075`. -/
theorem C5_transition_linked_witness :
    sumDist (transition_model corpusAB "A" (17 / 20)) = 1
    ∧ dget (transition_model corpusAB "A" (17 / 20)) "B"
        = (1 - 17 / 20) / (corpusAB.length : ℚ) + (17 / 20) / ((["B"] : List Page).length : ℚ) :=
  ⟨(C5_transition_linked corpusAB "A" (17 / 20) ["B"] (by decide) (by decide) (by decide)
      (by decide) (by decide) (by norm_num) (by norm_num)).2.1,
    ((C5_transition_linked corpusAB "A" (17 / 20) ["B"] (by decide) (by decide) (by decide)
      (by decide) (by decide) (by norm_num) (by norm_num)).2.2 "B" (by decide)).1 (by decide) |>.1⟩

/-- C6. For a page of the corpus whose link set is empty, the transition
model returns the uniform distribution: the graph of the constant `1/N`
over the corpus keys, so every corpus page gets exactly `1/N`, for any
damping factor. -/
theorem C6_transition_dangling (corpus : Corpus) (page : Page) (damping : ℚ)
    (h : dlookup corpus page = some []) :
    transition_model corpus page damping
        = corpus.map (fun kl => (kl.1, 1 / (corpus.length : ℚ)))
    ∧ ∀ k ∈ dkeys corpus,
        dget (transition_model corpus page damping) k = 1 / (corpus.length : ℚ) := by
  have htm : transition_model corpus page damping
      = corpus.map (fun kl => (kl.1, 1 / (corpus.length : ℚ))) := by
    simp [transition_model, clinks, h]
  refine ⟨htm, fun k hk => ?_⟩
  rw [htm]
  exact dget_map_graph corpus (fun _ => 1 / (corpus.length : ℚ)) k hk

/-- C6 witness: the spec's scenario — `transition_model({A: {B}, B: {}}, "B", 0.85)`
is exactly `{A: 0.5, B: 0.5}`. -/
theorem C6_transition_dangling_witness :
    transition_model corpusAB "B" (17 / 20) = [("A", 1 / 2), ("B", 1 / 2)] := by
  rw [(C6_transition_dangling corpusAB "B" (17 / 20) (by decide)).1]
  decide

/-! ### Lemmas about a sweep of the iterative estimator -/

theorem dget_foldl_of_not_mem (corpus : Corpus) (damping : ℚ)
    (l : List (Page × List Page)) (q : Page) :
    q ∉ dkeys l → ∀ dist : Dist,
      dget (l.foldl (sweepStep corpus damping) dist) q = dget dist q := by
  induction l with
  | nil => intro _ dist; rfl
  | cons kl t ih =>
    intro h dist
    have hq : ¬ (q = kl.1 ∨ q ∈ dkeys t) := by
      simpa [dkeys, List.mem_cons] using h
    push_neg at hq
    rw [List.foldl_cons, ih hq.2 (sweepStep corpus damping dist kl)]
    exact dget_dset_ne dist kl.1 _ q hq.1

theorem dkeys_foldl_sweepStep (corpus : Corpus) (damping : ℚ)
    (l : List (Page × List Page)) :
    ∀ dist : Dist, (∀ kl ∈ l, kl.1 ∈ dkeys dist) →
      dkeys (l.foldl (sweepStep corpus damping) dist) = dkeys dist := by
  induction l with
  | nil => intro dist _; rfl
  | cons kl t ih =>
    intro dist h
    have hk : kl.1 ∈ dkeys dist := h kl (List.mem_cons_self kl t)
    have hkeys : dkeys (sweepStep corpus damping dist kl) = dkeys dist :=
      dkeys_dset_of_mem dist kl.1 _ hk
    rw [List.foldl_cons,
      ih (sweepStep corpus damping dist kl)
        (fun kl' h' => by rw [hkeys]; exact h kl' (List.mem_cons_of_mem _ h')),
      hkeys]

theorem get_sum_nonneg (corpus : Corpus) (dist : Dist) (page : Page)
    (h : ∀ q, 0 ≤ dget dist q) : 0 ≤ get_sum corpus dist page := by
  suffices h' : ∀ (l : List (Page × List Page)) (acc : ℚ), 0 ≤ acc →
      0 ≤ l.foldl
        (fun acc kl =>
          if page ∈ kl.2 then acc + dget dist kl.1 / (kl.2.length : ℚ) else acc)
        acc by
    exact h' corpus 0 le_rfl
  intro l
  induction l with
  | nil => intro acc hacc; exact hacc
  | cons kl t ih =>
    intro acc hacc
    rw [List.foldl_cons]
    apply ih
    by_cases hm : page ∈ kl.2
    · rw [if_pos hm]
      have : 0 ≤ dget dist kl.1 / (kl.2.length : ℚ) :=
        div_nonneg (h kl.1) (by positivity)
      linarith
    · rw [if_neg hm]
      exact hacc

theorem dget_sweepStep_nonneg (corpus : Corpus) (damping : ℚ)
    (h0 : 0 ≤ damping) (h1 : damping ≤ 1) (dist : Dist)
    (hd : ∀ q, 0 ≤ dget dist q) (kl : Page × List Page) :
    ∀ q, 0 ≤ dget (sweepStep corpus damping dist kl) q := by
  intro q
  by_cases hq : q = kl.1
  · rw [hq]
    show 0 ≤ dget (dset dist kl.1
      ((1 - damping) / (corpus.length : ℚ) + damping * get_sum corpus dist kl.1)) kl.1
    rw [dget_dset_self]
    have hb : 0 ≤ (1 - damping) / (corpus.length : ℚ) :=
      div_nonneg (by linarith) (Nat.cast_nonneg _)
    have hs : 0 ≤ damping * get_sum corpus dist kl.1 :=
      mul_nonneg h0 (get_sum_nonneg corpus dist kl.1 hd)
    linarith
  · show 0 ≤ dget (dset dist kl.1
      ((1 - damping) / (corpus.length : ℚ) + damping * get_sum corpus dist kl.1)) q
    rw [dget_dset_ne dist kl.1 _ q hq]
    exact hd q

theorem dget_foldl_nonneg (corpus : Corpus) (damping : ℚ)
    (h0 : 0 ≤ damping) (h1 : damping ≤ 1) (l : List (Page × List Page)) :
    ∀ dist : Dist, (∀ q, 0 ≤ dget dist q) →
      ∀ q, 0 ≤ dget (l.foldl (sweepStep corpus damping) dist) q := by
  induction l with
  | nil => intro dist hd q; exact hd q
  | cons kl t ih =>
    intro dist hd q
    rw [List.foldl_cons]
    exact ih (sweepStep corpus damping dist kl)
      (dget_sweepStep_nonneg corpus damping h0 h1 dist hd kl) q

/-- Gauss–Seidel characterisation of one sweep: if `corpus = pre ++ (p, pl) :: suf`
(with distinct keys), the value the sweep writes for `p` is
`(1-damping)/N + damping * get_sum` taken over the working distribution
obtained by already processing `pre`; that working distribution holds the
sweep's final (new) values on the keys of `pre` and the start-of-sweep values
everywhere else. -/
theorem sweep_split (corpus : Corpus) (damping : ℚ) (dist : Dist)
    (pre suf : List (Page × List Page)) (p : Page) (pl : List Page)
    (hsplit : corpus = pre ++ (p, pl) :: suf) (hnd : (dkeys corpus).Nodup) :
    dget (sweep corpus damping dist) p
        = (1 - damping) / (corpus.length : ℚ)
          + damping * get_sum corpus (pre.foldl (sweepStep corpus damping) dist) p
    ∧ (∀ q ∈ dkeys pre,
        dget (pre.foldl (sweepStep corpus damping) dist) q
          = dget (sweep corpus damping dist) q)
    ∧ (∀ q, q ∉ dkeys pre →
        dget (pre.foldl (sweepStep corpus damping) dist) q = dget dist q) := by
  have hkeys : dkeys corpus = dkeys pre ++ p :: dkeys suf := by
    rw [hsplit]
    simp [dkeys]
  have hnd' : (dkeys pre ++ p :: dkeys suf).Nodup := hkeys ▸ hnd
  have hpsuf : p ∉ dkeys suf :=
    (List.nodup_cons.mp (List.Nodup.of_append_right hnd')).1
  have hdisj : (dkeys pre).Disjoint (p :: dkeys suf) :=
    List.disjoint_of_nodup_append hnd'
  have hsw : ∀ f : Dist → (Page × List Page) → Dist,
      corpus.foldl f dist = suf.foldl f (f (pre.foldl f dist) (p, pl)) := by
    intro f
    conv_lhs => rw [hsplit]
    rw [List.foldl_append, List.foldl_cons]
  refine ⟨?_, ?_, ?_⟩
  · show dget (corpus.foldl (sweepStep corpus damping) dist) p = _
    rw [hsw (sweepStep corpus damping),
      dget_foldl_of_not_mem corpus damping suf p hpsuf _]
    exact dget_dset_self (pre.foldl (sweepStep corpus damping) dist) p _
  · intro q hq
    show _ = dget (corpus.foldl (sweepStep corpus damping) dist) q
    have hq1 : q ∉ dkeys suf := fun hc => hdisj hq (List.mem_cons_of_mem _ hc)
    have hq2 : q ≠ p := fun hc => hdisj hq (hc ▸ List.mem_cons_self p (dkeys suf))
    rw [hsw (sweepStep corpus damping),
      dget_foldl_of_not_mem corpus damping suf q hq1 _]
    exact (dget_dset_ne (pre.foldl (sweepStep corpus damping) dist) p _ q hq2).symm
  · intro q hq
    exact dget_foldl_of_not_mem corpus damping pre q hq dist

/-- C2 amended. Each sweep of `iterate_pagerank` processes the pages in
corpus key order and updates the distribution in place: writing page `p`
(where `corpus = pre ++ [(p, pl)] ++ suf`) uses
`(1-damping)/N + damping * get_sum` evaluated on the working distribution
that already contains the new values of every page in `pre` and still the
start-of-sweep values of the remaining pages — so values updated earlier in
the same sweep ARE used (in-place Gauss–Seidel, not synchronous Jacobi);
the start-of-sweep snapshot `old` only feeds the convergence test. -/
theorem C2_sweep_uses_updated_values (corpus : Corpus) (damping : ℚ) (dist : Dist)
    (pre suf : List (Page × List Page)) (p : Page) (pl : List Page)
    (hsplit : corpus = pre ++ (p, pl) :: suf) (hnd : (dkeys corpus).Nodup) :
    dget (sweep corpus damping dist) p
        = (1 - damping) / (corpus.length : ℚ)
          + damping * get_sum corpus (pre.foldl (sweepStep corpus damping) dist) p
    ∧ (∀ q ∈ dkeys pre,
        dget (pre.foldl (sweepStep corpus damping) dist) q
          = dget (sweep corpus damping dist) q)
    ∧ (∀ q, q ∉ dkeys pre →
        dget (pre.foldl (sweepStep corpus damping) dist) q = dget dist q) :=
  sweep_split corpus damping dist pre suf p pl hsplit hnd

/-- C2 amended witness: on `{A: {B}, B: {}}` with damping `0.85`, the value
the first sweep writes for `B` is computed from the working distribution in
which `A` has already been updated to its new value `3/40` (so `B` receives
`3/40 + (17/20)*(3/40) = 111/800`), not from the start-of-sweep snapshot. -/
theorem C2_sweep_uses_updated_values_witness :
    dget (sweep corpusAB (17 / 20) (initDist corpusAB)) "B"
        = (1 - 17 / 20) / (corpusAB.length : ℚ)
          + (17 / 20) * get_sum corpusAB
              ([("A", ["B"])].foldl (sweepStep corpusAB (17 / 20)) (initDist corpusAB)) "B" :=
  (C2_sweep_uses_updated_values corpusAB (17 / 20) (initDist corpusAB)
    [("A", ["B"])] [] "B" [] rfl (by decide)).1

/-- The two-page cycle `{A: {B}, B: {A}}` from the spec's scenarios. -/
def corpusCycle : Corpus := [("A", ["B"]), ("B", ["A"])]

/-- C8. With `n = 1` the loop `for i in range(1, n)` never runs, so
`sample_pagerank` returns the all-zero initial accumulator over the corpus
keys unmodified, for any non-empty corpus and any damping factor (the start
draw still happens, but its outcome is discarded). -/
theorem C8_sample_n1_returns_zeros (corpus : Corpus) (damping : ℚ) (us : Nat → ℚ)
    (hne : corpus ≠ []) (h0 : 0 ≤ us 0) (h1 : us 0 < 1) :
    sample_pagerank corpus damping 1 us = .ok (corpus.map (fun kl => (kl.1, 0))) := by
  have hNpos : 0 < corpus.length := List.length_pos.mpr hne
  have hklen : (dkeys corpus).length = corpus.length := by simp [dkeys]
  have hcast : (0 : ℚ) < ((dkeys corpus).length : ℚ) := by
    rw [hklen]
    exact_mod_cast hNpos
  have hflt : ⌊us 0 * ((dkeys corpus).length : ℚ)⌋ < ((dkeys corpus).length : ℤ) := by
    rw [Int.floor_lt]
    have : us 0 * ((dkeys corpus).length : ℚ) < 1 * ((dkeys corpus).length : ℚ) :=
      mul_lt_mul_of_pos_right h1 hcast
    push_cast
    linarith
  have hidx : Int.toNat ⌊us 0 * ((dkeys corpus).length : ℚ)⌋ < (dkeys corpus).length := by
    omega
  obtain ⟨k, hk⟩ : ∃ k, uniformChoice (dkeys corpus) (us 0) = some k :=
    ⟨_, List.get?_eq_get hidx⟩
  simp [sample_pagerank, hk, sampleAux]

/-- C8 witness: on `{A: {B}, B: {}}` with damping `0.85` and first raw draw
`0`, `sample_pagerank` with `n = 1` returns `{A: 0, B: 0}`. -/
theorem C8_sample_n1_returns_zeros_witness :
    sample_pagerank corpusAB (17 / 20) 1 usC1 = .ok [("A", 0), ("B", 0)] := by
  rw [C8_sample_n1_returns_zeros corpusAB (17 / 20) usC1 (by decide) (by decide) (by decide)]
  decide

/-- C9. `iterate_pagerank` is deterministic: its embedding consumes no
random stream (unlike `sample_pagerank`, which needs the explicit `us`
parameter), so two runs on identical inputs yield identical results. -/
theorem C9_iterate_deterministic (corpus : Corpus) (damping : ℚ) (fuel : Nat)
    (r₁ r₂ : Except PyErr (Option Dist))
    (h₁ : iterate_pagerank corpus damping fuel = r₁)
    (h₂ : iterate_pagerank corpus damping fuel = r₂) : r₁ = r₂ := by
  rw [← h₁, ← h₂]

/-- C9 witness: two runs on the two-page cycle with damping `0.85` both
produce `{A: 0.5, B: 0.5}`, hence are equal. -/
theorem C9_iterate_deterministic_witness :
    (Except.ok (some [("A", (1 : ℚ) / 2), ("B", (1 : ℚ) / 2)]) : Except PyErr (Option Dist))
      = .ok (some [("A", 1 / 2), ("B", 1 / 2)]) :=
  C9_iterate_deterministic corpusCycle (17 / 20) 2 _ _ (by decide) (by decide)

/-! ### The invariant of the iteration loop (claim C10) -/

theorem sweep_value_ge (corpus : Corpus) (damping : ℚ) (hnd : (dkeys corpus).Nodup)
    (h0 : 0 ≤ damping) (h1 : damping ≤ 1) (dist : Dist)
    (hdist : ∀ q, 0 ≤ dget dist q) (p : Page) (hp : p ∈ dkeys corpus) :
    (1 - damping) / (corpus.length : ℚ) ≤ dget (sweep corpus damping dist) p := by
  obtain ⟨kl, hklmem, hklp⟩ := List.mem_map.mp hp
  obtain ⟨pre, suf, hsplit⟩ := List.append_of_mem hklmem
  have hsp := sweep_split corpus damping dist pre suf kl.1 kl.2 (by rw [hsplit]) hnd
  rw [← hklp, hsp.1]
  have hw : ∀ q, 0 ≤ dget (pre.foldl (sweepStep corpus damping) dist) q :=
    dget_foldl_nonneg corpus damping h0 h1 pre dist hdist
  have := mul_nonneg h0 (get_sum_nonneg corpus _ kl.1 hw)
  linarith

theorem iterateLoop_inv (corpus : Corpus) (damping : ℚ) (hnd : (dkeys corpus).Nodup)
    (h0 : 0 ≤ damping) (h1 : damping ≤ 1) :
    ∀ (fuel : Nat) (dist out : Dist), (∀ q, 0 ≤ dget dist q) →
      dkeys dist = dkeys corpus →
      iterateLoop corpus damping fuel dist = some out →
      dkeys out = dkeys corpus
      ∧ ∀ p ∈ dkeys corpus, (1 - damping) / (corpus.length : ℚ) ≤ dget out p := by
  intro fuel
  induction fuel with
  | zero =>
    intro dist out _ _ h
    simp [iterateLoop] at h
  | succ n ih =>
    intro dist out hpos hkeys hrun
    have hknew : dkeys (sweep corpus damping dist) = dkeys corpus := by
      rw [show sweep corpus damping dist
          = corpus.foldl (sweepStep corpus damping) dist from rfl,
        dkeys_foldl_sweepStep corpus damping corpus dist
          (fun kl h => by rw [hkeys]; exact List.mem_map_of_mem Prod.fst h)]
      exact hkeys
    have hpnew : ∀ q, 0 ≤ dget (sweep corpus damping dist) q :=
      dget_foldl_nonneg corpus damping h0 h1 corpus dist hpos
    by_cases hch : changed corpus dist (sweep corpus damping dist) = true
    · have hrun' : iterateLoop corpus damping n (sweep corpus damping dist) = some out := by
        simpa [iterateLoop, hch] using hrun
      exact ih (sweep corpus damping dist) out hpnew hknew hrun'
    · have hout : sweep corpus damping dist = out := by
        simpa [iterateLoop, hch] using hrun
      rw [← hout]
      exact ⟨hknew, fun p hp => sweep_value_ge corpus damping hnd h0 h1 dist hpos p hp⟩

/-- C10. Whenever `iterate_pagerank` returns a distribution (for a corpus
with distinct keys, non-empty, damping in `(0,1)`), that distribution — the
result of the last full sweep — has exactly the corpus's key set, and every
page's rank is at least the base mass `(1-damping)/N`, hence strictly
positive.  (The same bound holds after every sweep of the run, which is how
the loop invariant is proved.) -/
theorem C10_iterate_keys_and_positive (corpus : Corpus) (damping : ℚ)
    (fuel : Nat) (out : Dist) (hnd : (dkeys corpus).Nodup) (hne : corpus ≠ [])
    (h0 : 0 < damping) (h1 : damping < 1)
    (hrun : iterate_pagerank corpus damping fuel = .ok (some out)) :
    dkeys out = dkeys corpus
    ∧ ∀ p ∈ dkeys corpus,
        (1 - damping) / (corpus.length : ℚ) ≤ dget out p ∧ 0 < dget out p := by
  have hlen : corpus.length ≠ 0 := by
    simpa [List.length_eq_zero] using hne
  have hloop : iterateLoop corpus damping fuel (initDist corpus) = some out := by
    simpa [iterate_pagerank, hlen] using hrun
  have hik : dkeys (initDist corpus) = dkeys corpus :=
    dkeys_map_graph corpus (fun _ => 1 / (corpus.length : ℚ))
  have hip : ∀ q, 0 ≤ dget (initDist corpus) q := fun q =>
    dget_map_graph_nonneg corpus (fun _ => 1 / (corpus.length : ℚ))
      (fun _ => by positivity) q
  obtain ⟨hk, hv⟩ := iterateLoop_inv corpus damping hnd (le_of_lt h0) (le_of_lt h1)
    fuel (initDist corpus) out hip hik hloop
  have hbase : 0 < (1 - damping) / (corpus.length : ℚ) := by
    apply div_pos (by linarith)
    have hp : 0 < corpus.length := Nat.pos_of_ne_zero hlen
    exact_mod_cast hp
  exact ⟨hk, fun p hp => ⟨hv p hp, lt_of_lt_of_le hbase (hv p hp)⟩⟩

/-- C10 witness: on the two-page cycle with damping `0.85` the returned
distribution `{A: 0.5, B: 0.5}` has the corpus's keys and each rank is at
least `(1-0.85)/2 = 0.075`, hence positive. -/
theorem C10_iterate_keys_and_positive_witness :
    dkeys [("A", (1 : ℚ) / 2), ("B", (1 : ℚ) / 2)] = dkeys corpusCycle
    ∧ ∀ p ∈ dkeys corpusCycle,
        (1 - 17 / 20) / (corpusCycle.length : ℚ)
            ≤ dget [("A", (1 : ℚ) / 2), ("B", (1 : ℚ) / 2)] p
        ∧ 0 < dget [("A", (1 : ℚ) / 2), ("B", (1 : ℚ) / 2)] p :=
  C10_iterate_keys_and_positive corpusCycle (17 / 20) 2
    [("A", (1 : ℚ) / 2), ("B", (1 : ℚ) / 2)] (by decide) (by decide)
    (by norm_num) (by norm_num) (by decide)

end PageRank
